import Mathlib

/-!
Verification development for the Movie_recommend repository.

The repository ships a React frontend (src/frontend/src/api.js) and a README
describing a distributed retrain-lock coordinator (quorum lock protocol over
independent store nodes, single-node fallback, lock manager facade, retrain
coordinator, and lock metrics). The coordinator itself is documented but its
implementation files are not present under src/, so the lock model below is
built from the specification text; the frontend model is built from api.js.
-/

namespace MovieRecommend

/-! Single-node lock store client (spec section 4.1). -/

/-- Modelled from the spec: one stored lock entry on a key-value node, for the
single protected resource: the payload value identifying the holder, and the
absolute expiry instant of the key. -/
structure Entry where
  value : Nat
  expiry : Nat
deriving DecidableEq, Repr

/-- Modelled from the spec: set_if_absent(resource, value, ttl) atomically
creates the key with payload value and expiry now + ttl, succeeding only if no
such key currently exists or it already expired. -/
def set_if_absent (st : Option Entry) (now v ttl : Nat) : Bool × Option Entry :=
  match st with
  | none => (true, some ⟨v, now + ttl⟩)
  | some e => if e.expiry ≤ now then (true, some ⟨v, now + ttl⟩) else (false, some e)

/-- Modelled from the spec: delete_if_match(resource, value) atomically deletes
the key only if its current payload equals value; returns whether the delete
happened. -/
def delete_if_match (st : Option Entry) (v : Nat) : Bool × Option Entry :=
  match st with
  | none => (false, none)
  | some e => if e.value = v then (true, none) else (false, some e)

/-- Modelled from the spec: extend_if_match(resource, value, new_ttl) atomically
resets the expiry only if the current payload equals value. -/
def extend_if_match (st : Option Entry) (now v newTtl : Nat) : Bool × Option Entry :=
  match st with
  | none => (false, none)
  | some e => if e.value = v then (true, some ⟨v, now + newTtl⟩) else (false, some e)

/-! Quorum lock protocol (spec section 4.2), functional model of one
acquire round. -/

/-- Modelled from the spec: one independent store node, with its reachability
from the acquiring process and its current store state for the resource. -/
structure Node where
  reachable : Bool
  store : Option Entry
deriving DecidableEq, Repr

/-- Modelled from the spec: the per-node outcome of one set_if_absent round
trip; network failure or timeout surfaces as a distinguishable unreachable
outcome, never silently treated as success or failure. -/
inductive NodeOutcome where
  | ok
  | denied
  | unreachable
deriving DecidableEq, Repr

/-- Modelled from the spec: attempt set_if_absent against one node; an
unreachable node contributes no success and its state is unchanged. -/
def tryGrant (nd : Node) (t0 v ttl : Nat) : NodeOutcome × Node :=
  if nd.reachable then
    let r := set_if_absent nd.store t0 v ttl
    (if r.1 then NodeOutcome.ok else NodeOutcome.denied, { nd with store := r.2 })
  else (NodeOutcome.unreachable, nd)

/-- Modelled from the spec: the quorum threshold, a majority of the N
configured nodes. -/
def majority (n : Nat) : Nat := n / 2 + 1

/-- Modelled from the spec: the Lock Token data model of section 3. -/
structure LockToken where
  resource : String
  value : Nat
  ttl : Nat
  acquired_at : Nat
  validity_deadline : Nat
deriving DecidableEq, Repr

/-- Modelled from the spec: parallel set_if_absent fan-out against all
configured nodes, collecting each outcome and the node state it leaves. -/
def grantResults (nodes : List Node) (t0 v ttl : Nat) : List (NodeOutcome × Node) :=
  nodes.map (fun nd => tryGrant nd t0 v ttl)

/-- Modelled from the spec: the number of nodes that reported a successful
set_if_absent. -/
def successCount (rs : List (NodeOutcome × Node)) : Nat :=
  rs.countP (fun p => p.1 == NodeOutcome.ok)

/-- Modelled from the spec: the usable validity window left after deducting the
drift margin, where drift_margin = elapsed_time + clock_drift_factor. -/
def usableWindow (ttl elapsed drift : Nat) : Nat := ttl - (elapsed + drift)

/-- Result of one quorum acquire round: the token on success, the node states
it leaves behind, and one flag per node recording whether a best-effort
delete_if_match was issued against it during failure cleanup. -/
structure QuorumResult where
  token : Option LockToken
  nodes : List Node
  deletesIssued : List Bool
deriving DecidableEq, Repr

/-- Modelled from the spec: one quorum acquire attempt. Fan out set_if_absent
to all nodes; if a majority succeeded and ttl minus the drift margin is still
positive, return a token with validity_deadline = t0 + ttl - drift_margin;
otherwise issue best-effort delete_if_match against every node that reported
success and return failure. -/
def quorumAcquire (resource : String) (nodes : List Node)
    (t0 elapsed ttl drift v : Nat) : QuorumResult :=
  let rs := grantResults nodes t0 v ttl
  if majority nodes.length ≤ successCount rs ∧ elapsed + drift < ttl then
    { token := some ⟨resource, v, ttl, t0, t0 + ttl - (elapsed + drift)⟩
      nodes := rs.map Prod.snd
      deletesIssued := List.replicate nodes.length false }
  else
    { token := none
      nodes := rs.map (fun p =>
        if p.1 == NodeOutcome.ok then
          { p.2 with store := (delete_if_match p.2.store v).2 }
        else p.2)
      deletesIssued := rs.map (fun p => p.1 == NodeOutcome.ok) }

/-- Modelled from the spec: best-effort release, delete_if_match against all
nodes in parallel; an unreachable node is not an error and is left to expire
on its own. Returns for each node whether the delete happened, and the node
state it leaves. -/
def quorumRelease (nodes : List Node) (v : Nat) : List (Bool × Node) :=
  nodes.map (fun nd =>
    if nd.reachable then
      let r := delete_if_match nd.store v
      (r.1, { nd with store := r.2 })
    else (false, nd))

/-! Single-node fallback lock (spec section 4.3). -/

/-- Modelled from the spec: fallback acquire against exactly one store node,
without quorum voting or drift margin; on success the token has
validity_deadline = t0 + ttl exactly. -/
def fallbackAcquire (resource : String) (nd : Node) (t0 ttl v : Nat) :
    Option LockToken × Node :=
  if nd.reachable then
    let r := set_if_absent nd.store t0 v ttl
    (if r.1 then some ⟨resource, v, ttl, t0, t0 + ttl⟩ else none,
      { nd with store := r.2 })
  else (none, nd)

/-- Modelled from the spec: fallback release against the single store node. -/
def fallbackRelease (nd : Node) (v : Nat) : Bool × Node :=
  if nd.reachable then
    let r := delete_if_match nd.store v
    (r.1, { nd with store := r.2 })
  else (false, nd)

/-! Trace model of concurrent acquire attempts (spec sections 3, 4.2, 5, 8).
The whole fleet of acquiring processes and store nodes is modelled as a
transition system over global simulated time. A store node entry set at true
time t with a requested ttl expires at some true time e with
t + ttl - drift <= e <= t + ttl + drift, which captures the configured
clock-drift bound of the store nodes. -/

/-- Modelled from the spec: the lifecycle of one acquisition attempt. A token
is only held between successful acquisition and its validity deadline; a
released token is discarded by the caller. -/
inductive AStatus where
  | pending
  | succeeded (deadline : Nat)
  | failed
  | released
deriving DecidableEq, Repr

/-- Modelled from the spec: the in-memory state of one acquisition attempt:
its fresh random value, start time t0, requested ttl, and the set of store
nodes whose set_if_absent reported success. -/
structure AttemptSt (N : Nat) where
  value : Nat
  t0 : Nat
  ttl : Nat
  granted : Finset (Fin N)
  status : AStatus
deriving DecidableEq

/-- Modelled from the spec: the global simulated state: current instant, the
store entry each of the N nodes holds for the protected resource, and every
attempt started so far, indexed by creation order. -/
structure TraceState (N : Nat) where
  now : Nat
  nodes : Fin N → Option Entry
  attempts : Nat → Option (AttemptSt N)
  nextId : Nat

/-- The initial state: no node holds an entry and no attempt exists. -/
def initState (N : Nat) : TraceState N :=
  { now := 0, nodes := fun _ => none, attempts := fun _ => none, nextId := 0 }

/-- Modelled from the spec: one event of the quorum lock protocol, at a global
instant t that never runs backwards. start creates an attempt with a fresh
value; grant is a successful set_if_absent round trip on one node (only
possible while the node key is absent or expired); finishSuccess closes an
acquire with a majority of grants and a positive remaining margin, fixing
validity_deadline = t0 + ttl - (elapsed + drift); finishFail closes it as a
failure (insufficient successes, margin exhausted, or timeouts);
cleanupDelete and releaseDelete are best-effort delete_if_match calls of a
failed or released attempt; release discards a held token. An unreachable
node is simply one that never grants. -/
inductive Step (N drift : Nat) : TraceState N → TraceState N → Prop where
  | tick (s : TraceState N) (t : Nat) (ht : s.now ≤ t) :
      Step N drift s { s with now := t }
  | start (s : TraceState N) (t v ttl : Nat) (ht : s.now ≤ t)
      (hfresh : ∀ i a, s.attempts i = some a → a.value ≠ v)
      (httl : 0 < ttl) :
      Step N drift s
        { now := t, nodes := s.nodes
          attempts := Function.update s.attempts s.nextId
            (some ⟨v, t, ttl, ∅, AStatus.pending⟩)
          nextId := s.nextId + 1 }
  | grant (s : TraceState N) (t i : Nat) (a : AttemptSt N) (j : Fin N) (e : Nat)
      (ht : s.now ≤ t)
      (ha : s.attempts i = some a) (hp : a.status = AStatus.pending)
      (hfree : ∀ en, s.nodes j = some en → en.expiry ≤ t)
      (helo : t + a.ttl ≤ e + drift) (hehi : e ≤ t + a.ttl + drift) :
      Step N drift s
        { now := t
          nodes := Function.update s.nodes j (some ⟨a.value, e⟩)
          attempts := Function.update s.attempts i
            (some { a with granted := insert j a.granted })
          nextId := s.nextId }
  | finishSuccess (s : TraceState N) (t i : Nat) (a : AttemptSt N) (d : Nat)
      (ht : s.now ≤ t)
      (ha : s.attempts i = some a) (hp : a.status = AStatus.pending)
      (hmaj : majority N ≤ a.granted.card)
      (hmargin : t - a.t0 + drift < a.ttl)
      (hd : d + (t - a.t0 + drift) = a.t0 + a.ttl) :
      Step N drift s
        { now := t, nodes := s.nodes
          attempts := Function.update s.attempts i
            (some { a with status := AStatus.succeeded d })
          nextId := s.nextId }
  | finishFail (s : TraceState N) (t i : Nat) (a : AttemptSt N)
      (ht : s.now ≤ t) (ha : s.attempts i = some a)
      (hp : a.status = AStatus.pending) :
      Step N drift s
        { now := t, nodes := s.nodes
          attempts := Function.update s.attempts i
            (some { a with status := AStatus.failed })
          nextId := s.nextId }
  | cleanupDelete (s : TraceState N) (t i : Nat) (a : AttemptSt N) (j : Fin N)
      (ht : s.now ≤ t) (ha : s.attempts i = some a)
      (hf : a.status = AStatus.failed) :
      Step N drift s
        { now := t
          nodes := Function.update s.nodes j (delete_if_match (s.nodes j) a.value).2
          attempts := s.attempts, nextId := s.nextId }
  | release (s : TraceState N) (t i : Nat) (a : AttemptSt N) (d : Nat)
      (ht : s.now ≤ t) (ha : s.attempts i = some a)
      (hs : a.status = AStatus.succeeded d) :
      Step N drift s
        { now := t, nodes := s.nodes
          attempts := Function.update s.attempts i
            (some { a with status := AStatus.released })
          nextId := s.nextId }
  | releaseDelete (s : TraceState N) (t i : Nat) (a : AttemptSt N) (j : Fin N)
      (ht : s.now ≤ t) (ha : s.attempts i = some a)
      (hr : a.status = AStatus.released) :
      Step N drift s
        { now := t
          nodes := Function.update s.nodes j (delete_if_match (s.nodes j) a.value).2
          attempts := s.attempts, nextId := s.nextId }

/-- States reachable from the initial state by protocol events. -/
def Reachable (N drift : Nat) (s : TraceState N) : Prop :=
  Relation.ReflTransGen (Step N drift) (initState N) s

/-- Modelled from the spec: attempt i is in the held state at the current
instant: it succeeded, was not released, and its validity deadline is still
in the future. -/
def heldAt (s : TraceState N) (i : Nat) : Prop :=
  ∃ a d, s.attempts i = some a ∧ a.status = AStatus.succeeded d ∧ s.now < d

/-- The inductive invariant of the trace model: attempt ids below nextId,
start times in the past, pairwise distinct attempt values, and for pending
and succeeded attempts every granted node still holds the attempt value
(with an expiry covering the remaining validity) unless the corresponding
window has already passed. -/
structure Inv (N drift : Nat) (s : TraceState N) : Prop where
  ids : ∀ i, s.nextId ≤ i → s.attempts i = none
  t0le : ∀ i a, s.attempts i = some a → a.t0 ≤ s.now
  distinct : ∀ i j a b, s.attempts i = some a → s.attempts j = some b →
    i ≠ j → a.value ≠ b.value
  pendingGood : ∀ i a, s.attempts i = some a → a.status = AStatus.pending →
    ∀ j, j ∈ a.granted →
      (∃ e, s.nodes j = some ⟨a.value, e⟩ ∧ a.t0 + a.ttl ≤ e + drift) ∨
        a.t0 + a.ttl ≤ s.now + drift
  succGood : ∀ i a d, s.attempts i = some a → a.status = AStatus.succeeded d →
    majority N ≤ a.granted.card ∧
    ∀ j, j ∈ a.granted →
      (∃ e, s.nodes j = some ⟨a.value, e⟩ ∧ d ≤ e) ∨ d ≤ s.now

/-- A concrete trace for evaluating the trace model: the single configured
node of a one-node deployment. -/
def witNode : Fin 1 := ⟨0, Nat.zero_lt_one⟩

/-- Concrete trace: attempt 0 as created at instant 0 with value 0 and
ttl 10. -/
def witPending : AttemptSt 1 := ⟨0, 0, 10, ∅, AStatus.pending⟩

/-- Concrete trace: attempt 0 after its set_if_absent on the single node
succeeded. -/
def witGranted : AttemptSt 1 :=
  { witPending with granted := insert witNode witPending.granted }

/-- Concrete trace: attempt 0 after quorum success, holding the lock with
validity deadline 10. -/
def witHeld : AttemptSt 1 := { witGranted with status := AStatus.succeeded 10 }

/-- Concrete trace: state after attempt 0 started. -/
def witS1 : TraceState 1 :=
  { now := 0, nodes := (initState 1).nodes
    attempts := Function.update (initState 1).attempts (initState 1).nextId
      (some ⟨0, 0, 10, ∅, AStatus.pending⟩)
    nextId := (initState 1).nextId + 1 }

/-- Concrete trace: state after the node granted attempt 0, the entry
expiring at instant 10. -/
def witS2 : TraceState 1 :=
  { now := 0
    nodes := Function.update witS1.nodes witNode (some ⟨witPending.value, 10⟩)
    attempts := Function.update witS1.attempts 0
      (some { witPending with granted := insert witNode witPending.granted })
    nextId := witS1.nextId }

/-- Concrete trace: state after attempt 0 finished acquisition successfully;
it is held at instant 0 with deadline 10. -/
def witState : TraceState 1 :=
  { now := 0, nodes := witS2.nodes
    attempts := Function.update witS2.attempts 0
      (some { witGranted with status := AStatus.succeeded 10 })
    nextId := witS2.nextId }

/-- Concrete trace continuation: attempt 1 as created at instant 10 with
value 1 and ttl 5, after the entry of attempt 0 expired. -/
def witPendingB : AttemptSt 1 := ⟨1, 10, 5, ∅, AStatus.pending⟩

/-- Concrete trace continuation: attempt 1 after the node granted it at
instant 10. -/
def witGrantedB : AttemptSt 1 :=
  { witPendingB with granted := insert witNode witPendingB.granted }

/-- Concrete trace continuation: state after attempt 1 started at
instant 10. -/
def witS4 : TraceState 1 :=
  { now := 10, nodes := witState.nodes
    attempts := Function.update witState.attempts witState.nextId
      (some ⟨1, 10, 5, ∅, AStatus.pending⟩)
    nextId := witState.nextId + 1 }

/-- Concrete trace continuation: state after the node granted attempt 1 at
instant 10 with expiry 15. -/
def witS5 : TraceState 1 :=
  { now := 10
    nodes := Function.update witS4.nodes witNode (some ⟨witPendingB.value, 15⟩)
    attempts := Function.update witS4.attempts 1
      (some { witPendingB with granted := insert witNode witPendingB.granted })
    nextId := witS4.nextId }

/-- Concrete trace continuation: state after attempt 1 finished acquisition
successfully at instant 10 with deadline 15. -/
def witS6 : TraceState 1 :=
  { now := 10, nodes := witS5.nodes
    attempts := Function.update witS5.attempts 1
      (some { witGrantedB with status := AStatus.succeeded 15 })
    nextId := witS5.nextId }

/-! Retrain coordinator (spec section 4.5), state machine model. -/

/-- Modelled from the spec: the per-attempt states of the retrain
coordinator. -/
inductive CoordState where
  | Idle
  | Acquiring
  | Running
  | Releasing
  | Expired
deriving DecidableEq, Repr

/-- Modelled from the spec: the events driving the coordinator: an external
trigger, the acquire outcome, extend outcomes while running, normal work
completion, and the unconditional return to Idle after Releasing or
Expired. -/
inductive CoordEvent where
  | trigger
  | acquireOk
  | acquireFail
  | extendOk
  | extendFail
  | workDone
  | releaseDone
deriving DecidableEq, Repr

/-- Modelled from the spec: the coordinator transition function. A failed
acquire ends the attempt immediately and returns to Idle; extend failure
while Running moves to Expired; Releasing and Expired return to Idle; every
other event leaves the state unchanged. -/
def coordStep : CoordState → CoordEvent → CoordState
  | CoordState.Idle, CoordEvent.trigger => CoordState.Acquiring
  | CoordState.Acquiring, CoordEvent.acquireOk => CoordState.Running
  | CoordState.Acquiring, CoordEvent.acquireFail => CoordState.Idle
  | CoordState.Running, CoordEvent.workDone => CoordState.Releasing
  | CoordState.Running, CoordEvent.extendFail => CoordState.Expired
  | CoordState.Running, CoordEvent.extendOk => CoordState.Running
  | CoordState.Releasing, CoordEvent.releaseDone => CoordState.Idle
  | CoordState.Expired, CoordEvent.releaseDone => CoordState.Idle
  | s, _ => s

/-- A run of the coordinator over a sequence of events. -/
def coordRun (s : CoordState) (evs : List CoordEvent) : CoordState :=
  evs.foldl coordStep s

/-- Modelled from the spec: the states in which the current attempt may still
rely on holding the lock. -/
def mayHoldLock : CoordState → Bool
  | CoordState.Running => true
  | CoordState.Releasing => true
  | _ => false

/-! Lock manager facade and metrics (spec section 4.4 and the README metrics
section of src/unnamed/part_000). -/

/-- Modelled from the spec: the backing mode the manager selects once at
startup. -/
inductive LockMode where
  | quorum
  | fallback
deriving DecidableEq, Repr

/-- The four exposed lock counters of the README metrics section:
lock_acquire_total, lock_acquire_failed_total, lock_release_total,
lock_release_failed_total. -/
inductive CounterKind where
  | acquireTotal
  | acquireFailed
  | releaseTotal
  | releaseFailed
deriving DecidableEq, Repr

/-- One recorded counter increment, labeled with the resource name and the
backing mode. -/
structure MetricEvent where
  kind : CounterKind
  resource : String
  mode : LockMode
deriving DecidableEq, Repr

/-- Modelled from the spec and the README metrics section: the increments one
acquire call records. lock_acquire_total counts every acquire attempt and
lock_acquire_failed_total counts the failed ones, so a failed acquire
records two increments. -/
def acquireMetrics (resource : String) (mode : LockMode) (success : Bool) :
    List MetricEvent :=
  if success then [⟨CounterKind.acquireTotal, resource, mode⟩]
  else [⟨CounterKind.acquireTotal, resource, mode⟩,
        ⟨CounterKind.acquireFailed, resource, mode⟩]

/-- Modelled from the README metrics section: lock_release_total counts
successful releases and lock_release_failed_total counts failed ones. -/
def releaseMetrics (resource : String) (mode : LockMode) (success : Bool) :
    List MetricEvent :=
  if success then [⟨CounterKind.releaseTotal, resource, mode⟩]
  else [⟨CounterKind.releaseFailed, resource, mode⟩]

/-- Modelled from the spec: the manager acquire entry point: dispatch to the
quorum protocol or the single-node fallback by mode, and record metrics at
this boundary only (the backends produce no metric events). -/
def managerAcquire (mode : LockMode) (resource : String) (nodes : List Node)
    (t0 elapsed ttl drift v : Nat) :
    Option LockToken × List Node × List MetricEvent :=
  match mode with
  | LockMode.quorum =>
    let r := quorumAcquire resource nodes t0 elapsed ttl drift v
    (r.token, r.nodes, acquireMetrics resource LockMode.quorum r.token.isSome)
  | LockMode.fallback =>
    match nodes with
    | [] => (none, [], acquireMetrics resource LockMode.fallback false)
    | nd :: rest =>
      let r := fallbackAcquire resource nd t0 ttl v
      (r.1, r.2 :: rest, acquireMetrics resource LockMode.fallback r.1.isSome)

/-- Whether a release through the manager counts as successful: some node
acknowledged the delete. -/
def releaseOutcome (mode : LockMode) (nodes : List Node) (v : Nat) : Bool :=
  match mode with
  | LockMode.quorum => (quorumRelease nodes v).any Prod.fst
  | LockMode.fallback =>
    match nodes with
    | [] => false
    | nd :: _ => (fallbackRelease nd v).1

/-- Modelled from the spec: the manager release entry point, recording release
metrics at this boundary only. -/
def managerRelease (mode : LockMode) (resource : String) (nodes : List Node)
    (v : Nat) : List Node × List MetricEvent :=
  match mode with
  | LockMode.quorum =>
    ((quorumRelease nodes v).map Prod.snd,
      releaseMetrics resource LockMode.quorum (releaseOutcome LockMode.quorum nodes v))
  | LockMode.fallback =>
    match nodes with
    | [] => ([], releaseMetrics resource LockMode.fallback false)
    | nd :: rest =>
      ((fallbackRelease nd v).2 :: rest,
        releaseMetrics resource LockMode.fallback (releaseOutcome LockMode.fallback nodes v))

/-- The value of one counter in an append-only metric log: the number of
recorded increments of that kind. -/
def counterValue (log : List MetricEvent) (k : CounterKind) : Nat :=
  log.countP (fun ev => ev.kind == k)

/-- The values of the four counters recorded by an event log, in README
order. -/
def counterValues (log : List MetricEvent) : Nat × Nat × Nat × Nat :=
  (counterValue log CounterKind.acquireTotal,
   counterValue log CounterKind.acquireFailed,
   counterValue log CounterKind.releaseTotal,
   counterValue log CounterKind.releaseFailed)

/-! Frontend API client, from src/frontend/src/api.js. -/

/-- From src/frontend/src/api.js line 3: API_BASE is the VITE_API_BASE
environment value when set and truthy, else the default backend address. -/
def API_BASE (viteApiBase : Option String) : String :=
  match viteApiBase with
  | some s => if s = "" then "http://localhost:8000" else s
  | none => "http://localhost:8000"

/-- Truthiness of an optional JavaScript string: undefined and the empty
string are falsy, every other string is truthy. -/
def jsTruthyString : Option String → Bool
  | none => false
  | some s => !(s == "")

/-- The observable shape of the GET request the recommend function issues:
its URL and its optional Authorization header. -/
structure HttpRequest where
  url : String
  authHeader : Option String
deriving DecidableEq, Repr

/-- From src/frontend/src/api.js recommend: the request it issues, with the
Authorization Bearer header present exactly when the token argument is
truthy. -/
def recommendRequest (apiBase : String) (userId n : Nat) (token : Option String) :
    HttpRequest :=
  { url := apiBase ++ "/recommend/" ++ toString userId ++ "?n=" ++ toString n
    authHeader :=
      if jsTruthyString token then some ("Bearer " ++ token.getD "") else none }

/-- From src/frontend/src/api.js recommend: the default value of the n
argument. -/
def recommendDefaultN : Nat := 10

/-- The shape of the backend response body the recommend function reads. -/
structure RecommendResponse (α : Type) where
  recommendations : List α

/-- From src/frontend/src/api.js recommend: the function returns the
recommendations field of the response body. -/
def recommendResult {α : Type} (resp : RecommendResponse α) : List α :=
  resp.recommendations

/-! Theorems: helper lemmas first, then one theorem per claim. -/

/-- A node can only report a successful set_if_absent if it was reachable, so
the success count of one fan-out never exceeds the number of reachable
nodes. -/
theorem successCount_le_reachable (nodes : List Node) (t0 v ttl : Nat) :
    successCount (grantResults nodes t0 v ttl) ≤
      nodes.countP (fun nd => nd.reachable) := by
  unfold successCount grantResults
  rw [List.countP_map]
  apply List.countP_mono_left
  intro nd _ h
  by_cases hr : nd.reachable = true
  · exact hr
  · exfalso
    simp only [Function.comp, tryGrant, Bool.not_eq_true] at h
    rw [Bool.not_eq_true] at hr
    rw [hr] at h
    simp at h

/-- Claim C2: for every acquire attempt in quorum mode over N configured
nodes, if fewer than floor(N/2)+1 nodes are reachable then acquire returns
failure, never success. -/
theorem acquire_fails_without_majority (resource : String) (nodes : List Node)
    (t0 elapsed ttl drift v : Nat)
    (h : nodes.countP (fun nd => nd.reachable) < majority nodes.length) :
    (quorumAcquire resource nodes t0 elapsed ttl drift v).token = none := by
  have hle := successCount_le_reachable nodes t0 v ttl
  have hcond : ¬ (majority nodes.length ≤ successCount (grantResults nodes t0 v ttl) ∧
      elapsed + drift < ttl) := by
    intro hc
    omega
  simp only [quorumAcquire, if_neg hcond]

/-- Witness for claim C2: three nodes with two unreachable, acquire fails. -/
theorem acquire_fails_without_majority_witness :
    (([⟨true, none⟩, ⟨false, none⟩, ⟨false, none⟩] : List Node).countP
        (fun nd => nd.reachable) <
      majority ([⟨true, none⟩, ⟨false, none⟩, ⟨false, none⟩] : List Node).length) ∧
    (quorumAcquire "retrain" [⟨true, none⟩, ⟨false, none⟩, ⟨false, none⟩]
        0 0 10 0 7).token = none :=
  ⟨by decide,
   acquire_fails_without_majority "retrain"
     [⟨true, none⟩, ⟨false, none⟩, ⟨false, none⟩] 0 0 10 0 7 (by decide)⟩

/-- Claim C3: with a majority of set_if_absent successes, a quorum acquire
succeeds exactly when ttl minus the drift margin elapsed + drift is positive,
and then the token has validity_deadline = t0 + ttl - (elapsed + drift); a
fallback acquire that succeeds yields validity_deadline = t0 + ttl
exactly. -/
theorem validity_deadline_formula (resource : String) (nodes : List Node)
    (t0 elapsed ttl drift v : Nat)
    (hmaj : majority nodes.length ≤ successCount (grantResults nodes t0 v ttl)) :
    ((quorumAcquire resource nodes t0 elapsed ttl drift v).token.isSome ↔
        elapsed + drift < ttl) ∧
    (∀ tk, (quorumAcquire resource nodes t0 elapsed ttl drift v).token = some tk →
        tk.validity_deadline = t0 + ttl - (elapsed + drift) ∧ tk.acquired_at = t0) ∧
    (∀ nd nd' tk, fallbackAcquire resource nd t0 ttl v = (some tk, nd') →
        tk.validity_deadline = t0 + ttl ∧ tk.acquired_at = t0) := by
  refine ⟨?_, ?_, ?_⟩
  · by_cases hlt : elapsed + drift < ttl
    · simp only [quorumAcquire, if_pos (And.intro hmaj hlt)]
      simpa using hlt
    · simp only [quorumAcquire, if_neg (fun hc : _ ∧ _ => hlt hc.2)]
      simpa using hlt
  · intro tk htk
    by_cases hlt : elapsed + drift < ttl
    · simp only [quorumAcquire, if_pos (And.intro hmaj hlt)] at htk
      cases htk
      exact ⟨rfl, rfl⟩
    · simp only [quorumAcquire, if_neg (fun hc : _ ∧ _ => hlt hc.2)] at htk
      exact Option.noConfusion htk
  · intro nd nd' tk h
    simp only [fallbackAcquire] at h
    by_cases hr : nd.reachable = true
    · rw [if_pos hr] at h
      by_cases hb : (set_if_absent nd.store t0 v ttl).1 = true
      · rw [if_pos hb] at h
        have h1 := congrArg Prod.fst h
        simp only at h1
        cases h1
        exact ⟨rfl, rfl⟩
      · rw [if_neg hb] at h
        have h1 := congrArg Prod.fst h
        simp at h1
    · rw [if_neg hr] at h
      have h1 := congrArg Prod.fst h
      simp at h1

/-- Witness for claim C3: one reachable node, elapsed 1, drift 1, ttl 10:
quorum deadline 8, fallback deadline 10. -/
theorem validity_deadline_formula_witness :
    ((quorumAcquire "retrain" [⟨true, none⟩] 0 1 10 1 5).token.isSome ↔
        1 + 1 < 10) ∧
    (LockToken.validity_deadline ⟨"retrain", 5, 10, 0, 8⟩ = 0 + 10 - (1 + 1) ∧
      LockToken.acquired_at ⟨"retrain", 5, 10, 0, 8⟩ = 0) ∧
    (LockToken.validity_deadline ⟨"retrain", 5, 10, 0, 10⟩ = 0 + 10 ∧
      LockToken.acquired_at ⟨"retrain", 5, 10, 0, 10⟩ = 0) :=
  ⟨(validity_deadline_formula "retrain" [⟨true, none⟩] 0 1 10 1 5 (by decide)).1,
   (validity_deadline_formula "retrain" [⟨true, none⟩] 0 1 10 1 5 (by decide)).2.1
     ⟨"retrain", 5, 10, 0, 8⟩ (by decide),
   (validity_deadline_formula "retrain" [⟨true, none⟩] 0 1 10 1 5 (by decide)).2.2
     ⟨true, none⟩ ⟨true, some ⟨5, 10⟩⟩ ⟨"retrain", 5, 10, 0, 10⟩ (by decide)⟩

/-- Claim C4: delete_if_match and extend_if_match presented with a value that
does not match what the node currently holds fail and leave the stored entry
of the actual holder unchanged. -/
theorem token_isolation (en : Entry) (v newTtl now : Nat) (h : v ≠ en.value) :
    delete_if_match (some en) v = (false, some en) ∧
    extend_if_match (some en) now v newTtl = (false, some en) := by
  have h2 : ¬ (en.value = v) := fun he => h he.symm
  constructor
  · simp [delete_if_match, h2]
  · simp [extend_if_match, h2]

/-- Witness for claim C4: a stale value 3 cannot delete or extend the entry of
holder 4. -/
theorem token_isolation_witness :
    (3 : Nat) ≠ 4 ∧
    (delete_if_match (some ⟨4, 9⟩) 3 = (false, some ⟨4, 9⟩) ∧
      extend_if_match (some ⟨4, 9⟩) 2 3 6 = (false, some ⟨4, 9⟩)) :=
  ⟨by decide, token_isolation ⟨4, 9⟩ 3 6 2 (by decide)⟩

/-- After a successful set_if_absent round trip the node stores exactly the
attempt value with expiry t0 + ttl. -/
theorem tryGrant_ok_store (nd : Node) (t0 v ttl : Nat)
    (h : (tryGrant nd t0 v ttl).1 = NodeOutcome.ok) :
    (tryGrant nd t0 v ttl).2.store = some ⟨v, t0 + ttl⟩ := by
  unfold tryGrant at h ⊢
  by_cases hr : nd.reachable = true
  · rw [if_pos hr] at h ⊢
    cases hst : nd.store with
    | none => simp [set_if_absent, hst]
    | some e =>
      by_cases hex : e.expiry ≤ t0
      · simp [set_if_absent, hst, hex]
      · simp [set_if_absent, hst, hex] at h
  · rw [if_neg hr] at h
    simp at h

/-- A node whose round trip did not report success is left unchanged by the
fan-out. -/
theorem tryGrant_not_ok_store (nd : Node) (t0 v ttl : Nat)
    (h : (tryGrant nd t0 v ttl).1 ≠ NodeOutcome.ok) :
    (tryGrant nd t0 v ttl).2 = nd := by
  unfold tryGrant at h ⊢
  by_cases hr : nd.reachable = true
  · rw [if_pos hr] at h ⊢
    cases hst : nd.store with
    | none => simp [set_if_absent, hst] at h
    | some e =>
      by_cases hex : e.expiry ≤ t0
      · simp [set_if_absent, hst, hex] at h
      · simp only [set_if_absent, hst, hex, if_neg]
        cases nd
        simp_all
  · rw [if_neg hr]

/-- Claim C5: a failed quorum acquire issues a best-effort delete_if_match
with its own fresh value against exactly the nodes that reported success, so
no store keeps an entry carrying the failed attempt value. -/
theorem failed_acquire_cleanup (resource : String) (nodes : List Node)
    (t0 elapsed ttl drift v : Nat)
    (hfresh : ∀ nd ∈ nodes, ∀ e, nd.store = some e → e.value ≠ v)
    (hfail : (quorumAcquire resource nodes t0 elapsed ttl drift v).token = none) :
    (quorumAcquire resource nodes t0 elapsed ttl drift v).deletesIssued
        = (grantResults nodes t0 v ttl).map (fun p => p.1 == NodeOutcome.ok) ∧
    ∀ nd ∈ (quorumAcquire resource nodes t0 elapsed ttl drift v).nodes,
      ∀ e, nd.store = some e → e.value ≠ v := by
  by_cases hc : majority nodes.length ≤ successCount (grantResults nodes t0 v ttl) ∧
      elapsed + drift < ttl
  · exfalso
    simp only [quorumAcquire, if_pos hc] at hfail
    exact Option.noConfusion hfail
  · constructor
    · simp only [quorumAcquire, if_neg hc]
    · intro nd hmem e hstore
      simp only [quorumAcquire, if_neg hc] at hmem
      rw [List.mem_map] at hmem
      obtain ⟨p, hp, rfl⟩ := hmem
      unfold grantResults at hp
      rw [List.mem_map] at hp
      obtain ⟨nd0, hnd0, rfl⟩ := hp
      by_cases hok : (tryGrant nd0 t0 v ttl).1 = NodeOutcome.ok
      · have hsto := tryGrant_ok_store nd0 t0 v ttl hok
        simp [hok, hsto, delete_if_match] at hstore
      · have hnd := tryGrant_not_ok_store nd0 t0 v ttl hok
        simp [hok] at hstore
        rw [hnd] at hstore
        exact hfresh nd0 hnd0 e hstore

/-- Witness for claim C5: three nodes with two unreachable, fresh value 7:
acquire fails and the one granting node is cleaned up. -/
theorem failed_acquire_cleanup_witness :
    (∀ nd ∈ ([⟨true, none⟩, ⟨false, none⟩, ⟨false, none⟩] : List Node),
        ∀ e, nd.store = some e → e.value ≠ 7) ∧
    (quorumAcquire "retrain" [⟨true, none⟩, ⟨false, none⟩, ⟨false, none⟩]
        0 2 10 0 7).token = none ∧
    ((quorumAcquire "retrain" [⟨true, none⟩, ⟨false, none⟩, ⟨false, none⟩]
          0 2 10 0 7).deletesIssued
        = (grantResults [⟨true, none⟩, ⟨false, none⟩, ⟨false, none⟩] 0 7 10).map
            (fun p => p.1 == NodeOutcome.ok) ∧
      ∀ nd ∈ (quorumAcquire "retrain"
          [⟨true, none⟩, ⟨false, none⟩, ⟨false, none⟩] 0 2 10 0 7).nodes,
        ∀ e, nd.store = some e → e.value ≠ 7) :=
  ⟨by decide, by decide,
   failed_acquire_cleanup "retrain" [⟨true, none⟩, ⟨false, none⟩, ⟨false, none⟩]
     0 2 10 0 7 (by decide) (by decide)⟩

/-- Claim C7: for a fixed ttl and elapsed acquisition time, a larger
clock-drift factor never enlarges the usable validity window, and the
deadline a successful quorum acquire reports is exactly t0 plus that
window. -/
theorem drift_margin_monotonicity (ttl elapsed d1 d2 : Nat) (h : d1 ≤ d2) :
    usableWindow ttl elapsed d2 ≤ usableWindow ttl elapsed d1 ∧
    ∀ resource nodes t0 v tk,
      (quorumAcquire resource nodes t0 elapsed ttl d1 v).token = some tk →
      tk.validity_deadline = t0 + usableWindow ttl elapsed d1 := by
  constructor
  · unfold usableWindow
    omega
  · intro resource nodes t0 v tk htk
    by_cases hc : majority nodes.length ≤ successCount (grantResults nodes t0 v ttl) ∧
        elapsed + d1 < ttl
    · simp only [quorumAcquire, if_pos hc] at htk
      cases htk
      unfold usableWindow
      simp only
      omega
    · simp only [quorumAcquire, if_neg hc] at htk
      exact Option.noConfusion htk

/-- Witness for claim C7: ttl 10, elapsed 1, drift factors 1 and 2. -/
theorem drift_margin_monotonicity_witness :
    usableWindow 10 1 2 ≤ usableWindow 10 1 1 ∧
    LockToken.validity_deadline ⟨"retrain", 5, 10, 0, 8⟩ = 0 + usableWindow 10 1 1 :=
  ⟨(drift_margin_monotonicity 10 1 1 2 (by decide)).1,
   (drift_margin_monotonicity 10 1 1 2 (by decide)).2 "retrain" [⟨true, none⟩] 0 5
     ⟨"retrain", 5, 10, 0, 8⟩ (by decide)⟩

/-- Claim C8: a failed acquire ends the attempt immediately and returns the
coordinator to Idle; the coordinator itself never re-enters Acquiring without
a fresh external trigger; without a trigger an idle coordinator stays idle;
and no event except a successful acquire can move a non-holding coordinator
into a lock-holding state. -/
theorem coordinator_failure_handling :
    (coordStep CoordState.Acquiring CoordEvent.acquireFail = CoordState.Idle ∧
      mayHoldLock (coordStep CoordState.Acquiring CoordEvent.acquireFail) = false) ∧
    (∀ s e, coordStep s e = CoordState.Acquiring →
      s = CoordState.Acquiring ∨ (s = CoordState.Idle ∧ e = CoordEvent.trigger)) ∧
    (∀ evs, CoordEvent.trigger ∉ evs →
      coordRun CoordState.Idle evs = CoordState.Idle) ∧
    (∀ s e, mayHoldLock (coordStep s e) = true →
      mayHoldLock s = true ∨ e = CoordEvent.acquireOk) := by
  refine ⟨⟨rfl, rfl⟩, ?_, ?_, ?_⟩
  · intro s e
    cases s <;> cases e <;> simp [coordStep]
  · intro evs h
    induction evs with
    | nil => rfl
    | cons e rest ih =>
      simp only [List.mem_cons, not_or] at h
      obtain ⟨he, hrest⟩ := h
      have hstep : coordStep CoordState.Idle e = CoordState.Idle := by
        cases e <;> first | rfl | exact absurd rfl he
      rw [coordRun, List.foldl_cons, hstep]
      exact ih hrest
  · intro s e
    cases s <;> cases e <;> simp [coordStep, mayHoldLock]

/-- Witness for claim C8: after a failed acquire and stray non-trigger events
the coordinator is still Idle. -/
theorem coordinator_failure_handling_witness :
    CoordEvent.trigger ∉ [CoordEvent.acquireFail, CoordEvent.workDone] ∧
    coordRun CoordState.Idle [CoordEvent.acquireFail, CoordEvent.workDone]
      = CoordState.Idle :=
  ⟨by decide,
   coordinator_failure_handling.2.2.1 [CoordEvent.acquireFail, CoordEvent.workDone]
     (by decide)⟩

/-- Counterexample for claim C9: a single failed acquire call through the lock
manager records two counter increments, lock_acquire_total and
lock_acquire_failed_total, not exactly one. -/
theorem metrics_single_increment_cx :
    (managerAcquire LockMode.fallback "retrain" [⟨false, none⟩] 0 0 10 0 7).2.2
        = [⟨CounterKind.acquireTotal, "retrain", LockMode.fallback⟩,
           ⟨CounterKind.acquireFailed, "retrain", LockMode.fallback⟩] ∧
    ¬ ((managerAcquire LockMode.fallback "retrain" [⟨false, none⟩] 0 0 10 0 7).2.2.length
        = 1) := by
  constructor
  · rfl
  · decide

/-- Claim C9 amended: every acquire call through the lock manager increments
the acquire-attempts counter and, when it fails, additionally the
acquire-failures counter; every release call increments exactly one of the
release-successes or release-failures counters; every increment is labeled
with the resource name and backing mode, in both quorum and fallback mode;
and counter values never decrease as the log grows. -/
theorem lock_manager_metrics (mode : LockMode) (resource : String)
    (nodes : List Node) (t0 elapsed ttl drift v : Nat) (b : Bool)
    (log ext : List MetricEvent) (k : CounterKind) :
    ((managerAcquire mode resource nodes t0 elapsed ttl drift v).2.2 =
        acquireMetrics resource mode
          (managerAcquire mode resource nodes t0 elapsed ttl drift v).1.isSome) ∧
    ((managerRelease mode resource nodes v).2 =
        releaseMetrics resource mode (releaseOutcome mode nodes v)) ∧
    counterValues (acquireMetrics resource mode true) = (1, 0, 0, 0) ∧
    counterValues (acquireMetrics resource mode false) = (1, 1, 0, 0) ∧
    counterValues (releaseMetrics resource mode true) = (0, 0, 1, 0) ∧
    counterValues (releaseMetrics resource mode false) = (0, 0, 0, 1) ∧
    (∀ ev ∈ acquireMetrics resource mode b, ev.resource = resource ∧ ev.mode = mode) ∧
    (∀ ev ∈ releaseMetrics resource mode b, ev.resource = resource ∧ ev.mode = mode) ∧
    counterValue log k ≤ counterValue (log ++ ext) k := by
  refine ⟨?_, ?_, ?_, ?_, ?_, ?_, ?_, ?_, ?_⟩
  · cases mode with
    | quorum => rfl
    | fallback => cases nodes <;> rfl
  · cases mode with
    | quorum => rfl
    | fallback => cases nodes <;> rfl
  · rfl
  · rfl
  · rfl
  · rfl
  · intro ev hev
    cases b <;> simp [acquireMetrics] at hev <;> rcases hev with rfl | rfl <;>
      exact ⟨rfl, rfl⟩
  · intro ev hev
    cases b <;> simp [releaseMetrics] at hev <;> rw [hev] <;> exact ⟨rfl, rfl⟩
  · unfold counterValue
    rw [List.countP_append]
    omega

/-- Witness for claim C9 amended: a failed fallback acquire records the
attempt and failure increments, both labeled with the resource and mode. -/
theorem lock_manager_metrics_witness :
    MetricEvent.mk CounterKind.acquireTotal "retrain" LockMode.fallback ∈
      acquireMetrics "retrain" LockMode.fallback false ∧
    (MetricEvent.resource ⟨CounterKind.acquireTotal, "retrain", LockMode.fallback⟩
        = "retrain" ∧
      MetricEvent.mode ⟨CounterKind.acquireTotal, "retrain", LockMode.fallback⟩
        = LockMode.fallback) :=
  ⟨by decide,
   (lock_manager_metrics LockMode.fallback "retrain" [] 0 0 10 0 7 false [] []
       CounterKind.acquireTotal).2.2.2.2.2.2.1
     ⟨CounterKind.acquireTotal, "retrain", LockMode.fallback⟩ (by decide)⟩

/-- Claim C10: the frontend recommend function issues a GET request to
API_BASE/recommend/userId?n=n, carries an Authorization Bearer header exactly
when the token is truthy, returns the recommendations field of the response
body, and defaults n to 10 when omitted. -/
theorem recommend_contract {α : Type} (env : Option String) (userId n : Nat)
    (token : Option String) (resp : RecommendResponse α) :
    (∀ s, token = some s → s ≠ "" →
      (recommendRequest (API_BASE env) userId n token).authHeader
        = some ("Bearer " ++ s)) ∧
    (jsTruthyString token = false →
      (recommendRequest (API_BASE env) userId n token).authHeader = none) ∧
    (recommendRequest (API_BASE env) userId n token).url
        = API_BASE env ++ "/recommend/" ++ toString userId ++ "?n=" ++ toString n ∧
    recommendResult resp = resp.recommendations ∧
    recommendDefaultN = 10 := by
  refine ⟨?_, ?_, rfl, rfl, rfl⟩
  · intro s hs hne
    subst hs
    simp [recommendRequest, jsTruthyString, hne]
  · intro hf
    simp [recommendRequest, hf]

/-- Witness for claim C10: a logged-in call with token value tok carries the
Bearer header. -/
theorem recommend_contract_witness :
    ((some "tok" : Option String) = some "tok" ∧ "tok" ≠ "") ∧
    (recommendRequest (API_BASE none) 1 10 (some "tok")).authHeader
      = some ("Bearer " ++ "tok") :=
  ⟨⟨rfl, by decide⟩,
   (recommend_contract (α := Nat) none 1 10 (some "tok") ⟨[]⟩).1 "tok" rfl (by decide)⟩

/-- Two majorities of the N configured nodes always intersect. -/
theorem majority_inter {N : Nat} (A B : Finset (Fin N))
    (hA : majority N ≤ A.card) (hB : majority N ≤ B.card) :
    ∃ x, x ∈ A ∧ x ∈ B := by
  have hcard : (A ∪ B).card ≤ N := by
    have h := Finset.card_le_univ (A ∪ B)
    simpa using h
  have hsum := Finset.card_union_add_card_inter A B
  have hpos : 0 < (A ∩ B).card := by
    unfold majority at hA hB
    omega
  obtain ⟨x, hx⟩ := Finset.card_pos.mp hpos
  exact ⟨x, Finset.mem_inter.mp hx⟩

/-- A delete_if_match carrying a different value leaves a stored entry
unchanged. -/
theorem delete_if_match_other {st : Option Entry} {v w e : Nat}
    (h : st = some ⟨w, e⟩) (hne : w ≠ v) :
    (delete_if_match st v).2 = some ⟨w, e⟩ := by
  subst h
  simp [delete_if_match, hne]

/-- Two live attempt records with different statuses sit at different
indices. -/
theorem attempts_ne_of_status {N : Nat} {s : TraceState N} {i i2 : Nat}
    {a a2 : AttemptSt N}
    (ha : s.attempts i = some a) (ha2 : s.attempts i2 = some a2)
    (hne : a.status ≠ a2.status) : i ≠ i2 := by
  intro hEq
  subst hEq
  rw [ha] at ha2
  cases ha2
  exact hne rfl

/-- The trace invariant holds in the initial state. -/
theorem inv_init (N drift : Nat) : Inv N drift (initState N) := by
  constructor
  · intro i _
    rfl
  · intro i a ha
    exact Option.noConfusion ha
  · intro i j a b ha
    exact Option.noConfusion ha
  · intro i a ha
    exact Option.noConfusion ha
  · intro i a d ha
    exact Option.noConfusion ha

/-- The trace invariant is preserved by every protocol event. -/
theorem inv_preserved {N drift : Nat} {s s' : TraceState N}
    (hinv : Inv N drift s) (hstep : Step N drift s s') : Inv N drift s' := by
  obtain ⟨ids, t0le, distinct, pendingGood, succGood⟩ := hinv
  cases hstep with
  | tick t ht =>
    refine ⟨ids, ?_, distinct, ?_, ?_⟩
    · intro i a ha
      exact le_trans (t0le i a ha) ht
    · intro i a ha hp j hj
      rcases pendingGood i a ha hp j hj with ⟨e, he, hle⟩ | hold
      · exact Or.inl ⟨e, he, hle⟩
      · refine Or.inr ?_
        show a.t0 + a.ttl ≤ t + drift
        omega
    · intro i a d ha hd
      obtain ⟨hcard, hnodes⟩ := succGood i a d ha hd
      refine ⟨hcard, fun j hj => ?_⟩
      rcases hnodes j hj with ⟨e, he, hle⟩ | hold
      · exact Or.inl ⟨e, he, hle⟩
      · refine Or.inr ?_
        show d ≤ t
        omega
  | start t v ttl ht hfresh httl =>
    refine ⟨?_, ?_, ?_, ?_, ?_⟩
    · intro i hi
      replace hi : s.nextId + 1 ≤ i := hi
      show Function.update s.attempts s.nextId
        (some ⟨v, t, ttl, ∅, AStatus.pending⟩) i = none
      rw [Function.update_noteq (by omega : i ≠ s.nextId)]
      exact ids i (by omega)
    · intro i a ha
      replace ha : Function.update s.attempts s.nextId
          (some ⟨v, t, ttl, ∅, AStatus.pending⟩) i = some a := ha
      show a.t0 ≤ t
      by_cases hii : i = s.nextId
      · subst hii
        rw [Function.update_same] at ha
        cases ha
        exact le_refl t
      · rw [Function.update_noteq hii] at ha
        exact le_trans (t0le i a ha) ht
    · intro i j a b ha hb hij
      replace ha : Function.update s.attempts s.nextId
          (some ⟨v, t, ttl, ∅, AStatus.pending⟩) i = some a := ha
      replace hb : Function.update s.attempts s.nextId
          (some ⟨v, t, ttl, ∅, AStatus.pending⟩) j = some b := hb
      by_cases hii : i = s.nextId
      · subst hii
        rw [Function.update_same] at ha
        cases ha
        rw [Function.update_noteq (Ne.symm hij)] at hb
        exact Ne.symm (hfresh j b hb)
      · rw [Function.update_noteq hii] at ha
        by_cases hjj : j = s.nextId
        · subst hjj
          rw [Function.update_same] at hb
          cases hb
          exact hfresh i a ha
        · rw [Function.update_noteq hjj] at hb
          exact distinct i j a b ha hb hij
    · intro i a ha hp j hj
      replace ha : Function.update s.attempts s.nextId
          (some ⟨v, t, ttl, ∅, AStatus.pending⟩) i = some a := ha
      by_cases hii : i = s.nextId
      · subst hii
        rw [Function.update_same] at ha
        cases ha
        exact absurd hj (Finset.not_mem_empty j)
      · rw [Function.update_noteq hii] at ha
        rcases pendingGood i a ha hp j hj with ⟨e, he, hle⟩ | hold
        · exact Or.inl ⟨e, he, hle⟩
        · refine Or.inr ?_
          show a.t0 + a.ttl ≤ t + drift
          omega
    · intro i a d ha hd
      replace ha : Function.update s.attempts s.nextId
          (some ⟨v, t, ttl, ∅, AStatus.pending⟩) i = some a := ha
      by_cases hii : i = s.nextId
      · subst hii
        rw [Function.update_same] at ha
        cases ha
        exact AStatus.noConfusion hd
      · rw [Function.update_noteq hii] at ha
        obtain ⟨hcard, hnodes⟩ := succGood i a d ha hd
        refine ⟨hcard, fun j hj => ?_⟩
        rcases hnodes j hj with ⟨e, he, hle⟩ | hold
        · exact Or.inl ⟨e, he, hle⟩
        · refine Or.inr ?_
          show d ≤ t
          omega
  | grant t i2 a2 j2 e2 ht ha2 hp2 hfree helo hehi =>
    refine ⟨?_, ?_, ?_, ?_, ?_⟩
    · intro i hi
      replace hi : s.nextId ≤ i := hi
      show Function.update s.attempts i2
        (some { a2 with granted := insert j2 a2.granted }) i = none
      have hne : i ≠ i2 := by
        intro hEq
        subst hEq
        rw [ids i hi] at ha2
        exact Option.noConfusion ha2
      rw [Function.update_noteq hne]
      exact ids i hi
    · intro i a ha
      replace ha : Function.update s.attempts i2
          (some { a2 with granted := insert j2 a2.granted }) i = some a := ha
      show a.t0 ≤ t
      by_cases hii : i = i2
      · subst hii
        rw [Function.update_same] at ha
        cases ha
        exact le_trans (t0le i a2 ha2) ht
      · rw [Function.update_noteq hii] at ha
        exact le_trans (t0le i a ha) ht
    · intro i j a b ha hb hij
      replace ha : Function.update s.attempts i2
          (some { a2 with granted := insert j2 a2.granted }) i = some a := ha
      replace hb : Function.update s.attempts i2
          (some { a2 with granted := insert j2 a2.granted }) j = some b := hb
      by_cases hii : i = i2
      · subst hii
        rw [Function.update_same] at ha
        cases ha
        rw [Function.update_noteq (Ne.symm hij)] at hb
        exact distinct i j a2 b ha2 hb hij
      · rw [Function.update_noteq hii] at ha
        by_cases hjj : j = i2
        · subst hjj
          rw [Function.update_same] at hb
          cases hb
          exact distinct i j a a2 ha ha2 hij
        · rw [Function.update_noteq hjj] at hb
          exact distinct i j a b ha hb hij
    · intro i a ha hp j hj
      replace ha : Function.update s.attempts i2
          (some { a2 with granted := insert j2 a2.granted }) i = some a := ha
      by_cases hii : i = i2
      · subst hii
        rw [Function.update_same] at ha
        cases ha
        by_cases hjj : j = j2
        · subst hjj
          refine Or.inl ⟨e2, ?_, ?_⟩
          · show Function.update s.nodes j (some ⟨a2.value, e2⟩) j
              = some ⟨a2.value, e2⟩
            exact Function.update_same _ _ _
          · show a2.t0 + a2.ttl ≤ e2 + drift
            have h1 : a2.t0 ≤ t := le_trans (t0le i a2 ha2) ht
            omega
        · have hj' : j ∈ a2.granted := by
            rcases Finset.mem_insert.mp hj with h | h
            · exact absurd h hjj
            · exact h
          rcases pendingGood i a2 ha2 hp2 j hj' with ⟨e, he, hle⟩ | hold
          · refine Or.inl ⟨e, ?_, hle⟩
            show Function.update s.nodes j2 (some ⟨a2.value, e2⟩) j
              = some ⟨a2.value, e⟩
            rw [Function.update_noteq hjj]
            exact he
          · refine Or.inr ?_
            show a2.t0 + a2.ttl ≤ t + drift
            omega
      · rw [Function.update_noteq hii] at ha
        by_cases hjj : j = j2
        · subst hjj
          rcases pendingGood i a ha hp j hj with ⟨e, he, hle⟩ | hold
          · have hexp := hfree _ he
            replace hexp : e ≤ t := hexp
            refine Or.inr ?_
            show a.t0 + a.ttl ≤ t + drift
            omega
          · refine Or.inr ?_
            show a.t0 + a.ttl ≤ t + drift
            omega
        · rcases pendingGood i a ha hp j hj with ⟨e, he, hle⟩ | hold
          · refine Or.inl ⟨e, ?_, hle⟩
            show Function.update s.nodes j2 (some ⟨a2.value, e2⟩) j
              = some ⟨a.value, e⟩
            rw [Function.update_noteq hjj]
            exact he
          · refine Or.inr ?_
            show a.t0 + a.ttl ≤ t + drift
            omega
    · intro i a d ha hd
      replace ha : Function.update s.attempts i2
          (some { a2 with granted := insert j2 a2.granted }) i = some a := ha
      by_cases hii : i = i2
      · subst hii
        rw [Function.update_same] at ha
        cases ha
        replace hd : a2.status = AStatus.succeeded d := hd
        rw [hp2] at hd
        exact AStatus.noConfusion hd
      · rw [Function.update_noteq hii] at ha
        obtain ⟨hcard, hnodes⟩ := succGood i a d ha hd
        refine ⟨hcard, fun j hj => ?_⟩
        by_cases hjj : j = j2
        · subst hjj
          rcases hnodes j hj with ⟨e, he, hle⟩ | hold
          · have hexp := hfree _ he
            replace hexp : e ≤ t := hexp
            refine Or.inr ?_
            show d ≤ t
            omega
          · refine Or.inr ?_
            show d ≤ t
            omega
        · rcases hnodes j hj with ⟨e, he, hle⟩ | hold
          · refine Or.inl ⟨e, ?_, hle⟩
            show Function.update s.nodes j2 (some ⟨a2.value, e2⟩) j
              = some ⟨a.value, e⟩
            rw [Function.update_noteq hjj]
            exact he
          · refine Or.inr ?_
            show d ≤ t
            omega
  | finishSuccess t i2 a2 d2 ht ha2 hp2 hmaj hmargin hd2 =>
    refine ⟨?_, ?_, ?_, ?_, ?_⟩
    · intro i hi
      replace hi : s.nextId ≤ i := hi
      show Function.update s.attempts i2
        (some { a2 with status := AStatus.succeeded d2 }) i = none
      have hne : i ≠ i2 := by
        intro hEq
        subst hEq
        rw [ids i hi] at ha2
        exact Option.noConfusion ha2
      rw [Function.update_noteq hne]
      exact ids i hi
    · intro i a ha
      replace ha : Function.update s.attempts i2
          (some { a2 with status := AStatus.succeeded d2 }) i = some a := ha
      show a.t0 ≤ t
      by_cases hii : i = i2
      · subst hii
        rw [Function.update_same] at ha
        cases ha
        exact le_trans (t0le i a2 ha2) ht
      · rw [Function.update_noteq hii] at ha
        exact le_trans (t0le i a ha) ht
    · intro i j a b ha hb hij
      replace ha : Function.update s.attempts i2
          (some { a2 with status := AStatus.succeeded d2 }) i = some a := ha
      replace hb : Function.update s.attempts i2
          (some { a2 with status := AStatus.succeeded d2 }) j = some b := hb
      by_cases hii : i = i2
      · subst hii
        rw [Function.update_same] at ha
        cases ha
        rw [Function.update_noteq (Ne.symm hij)] at hb
        exact distinct i j a2 b ha2 hb hij
      · rw [Function.update_noteq hii] at ha
        by_cases hjj : j = i2
        · subst hjj
          rw [Function.update_same] at hb
          cases hb
          exact distinct i j a a2 ha ha2 hij
        · rw [Function.update_noteq hjj] at hb
          exact distinct i j a b ha hb hij
    · intro i a ha hp j hj
      replace ha : Function.update s.attempts i2
          (some { a2 with status := AStatus.succeeded d2 }) i = some a := ha
      by_cases hii : i = i2
      · subst hii
        rw [Function.update_same] at ha
        cases ha
        replace hp : AStatus.succeeded d2 = AStatus.pending := hp
        exact AStatus.noConfusion hp
      · rw [Function.update_noteq hii] at ha
        rcases pendingGood i a ha hp j hj with ⟨e, he, hle⟩ | hold
        · exact Or.inl ⟨e, he, hle⟩
        · refine Or.inr ?_
          show a.t0 + a.ttl ≤ t + drift
          omega
    · intro i a d ha hd
      replace ha : Function.update s.attempts i2
          (some { a2 with status := AStatus.succeeded d2 }) i = some a := ha
      by_cases hii : i = i2
      · subst hii
        rw [Function.update_same] at ha
        cases ha
        replace hd : AStatus.succeeded d2 = AStatus.succeeded d := hd
        injection hd with hdd
        subst hdd
        have ht0 : a2.t0 ≤ s.now := t0le i a2 ha2
        refine ⟨hmaj, fun j hj => ?_⟩
        rcases pendingGood i a2 ha2 hp2 j hj with ⟨e, he, hle⟩ | hold
        · refine Or.inl ⟨e, he, ?_⟩
          show d2 ≤ e
          omega
        · exact absurd hold (by omega)
      · rw [Function.update_noteq hii] at ha
        obtain ⟨hcard, hnodes⟩ := succGood i a d ha hd
        refine ⟨hcard, fun j hj => ?_⟩
        rcases hnodes j hj with ⟨e, he, hle⟩ | hold
        · exact Or.inl ⟨e, he, hle⟩
        · refine Or.inr ?_
          show d ≤ t
          omega
  | finishFail t i2 a2 ht ha2 hp2 =>
    refine ⟨?_, ?_, ?_, ?_, ?_⟩
    · intro i hi
      replace hi : s.nextId ≤ i := hi
      show Function.update s.attempts i2
        (some { a2 with status := AStatus.failed }) i = none
      have hne : i ≠ i2 := by
        intro hEq
        subst hEq
        rw [ids i hi] at ha2
        exact Option.noConfusion ha2
      rw [Function.update_noteq hne]
      exact ids i hi
    · intro i a ha
      replace ha : Function.update s.attempts i2
          (some { a2 with status := AStatus.failed }) i = some a := ha
      show a.t0 ≤ t
      by_cases hii : i = i2
      · subst hii
        rw [Function.update_same] at ha
        cases ha
        exact le_trans (t0le i a2 ha2) ht
      · rw [Function.update_noteq hii] at ha
        exact le_trans (t0le i a ha) ht
    · intro i j a b ha hb hij
      replace ha : Function.update s.attempts i2
          (some { a2 with status := AStatus.failed }) i = some a := ha
      replace hb : Function.update s.attempts i2
          (some { a2 with status := AStatus.failed }) j = some b := hb
      by_cases hii : i = i2
      · subst hii
        rw [Function.update_same] at ha
        cases ha
        rw [Function.update_noteq (Ne.symm hij)] at hb
        exact distinct i j a2 b ha2 hb hij
      · rw [Function.update_noteq hii] at ha
        by_cases hjj : j = i2
        · subst hjj
          rw [Function.update_same] at hb
          cases hb
          exact distinct i j a a2 ha ha2 hij
        · rw [Function.update_noteq hjj] at hb
          exact distinct i j a b ha hb hij
    · intro i a ha hp j hj
      replace ha : Function.update s.attempts i2
          (some { a2 with status := AStatus.failed }) i = some a := ha
      by_cases hii : i = i2
      · subst hii
        rw [Function.update_same] at ha
        cases ha
        replace hp : AStatus.failed = AStatus.pending := hp
        exact AStatus.noConfusion hp
      · rw [Function.update_noteq hii] at ha
        rcases pendingGood i a ha hp j hj with ⟨e, he, hle⟩ | hold
        · exact Or.inl ⟨e, he, hle⟩
        · refine Or.inr ?_
          show a.t0 + a.ttl ≤ t + drift
          omega
    · intro i a d ha hd
      replace ha : Function.update s.attempts i2
          (some { a2 with status := AStatus.failed }) i = some a := ha
      by_cases hii : i = i2
      · subst hii
        rw [Function.update_same] at ha
        cases ha
        replace hd : AStatus.failed = AStatus.succeeded d := hd
        exact AStatus.noConfusion hd
      · rw [Function.update_noteq hii] at ha
        obtain ⟨hcard, hnodes⟩ := succGood i a d ha hd
        refine ⟨hcard, fun j hj => ?_⟩
        rcases hnodes j hj with ⟨e, he, hle⟩ | hold
        · exact Or.inl ⟨e, he, hle⟩
        · refine Or.inr ?_
          show d ≤ t
          omega
  | cleanupDelete t i2 a2 j2 ht ha2 hf2 =>
    refine ⟨ids, ?_, distinct, ?_, ?_⟩
    · intro i a ha
      exact le_trans (t0le i a ha) ht
    · intro i a ha hp j hj
      replace ha : s.attempts i = some a := ha
      have hne : i ≠ i2 := by
        refine attempts_ne_of_status ha ha2 ?_
        rw [hp, hf2]
        exact fun h => AStatus.noConfusion h
      rcases pendingGood i a ha hp j hj with ⟨e, he, hle⟩ | hold
      · refine Or.inl ⟨e, ?_, hle⟩
        by_cases hjj : j = j2
        · subst hjj
          show Function.update s.nodes j
            (delete_if_match (s.nodes j) a2.value).2 j = some ⟨a.value, e⟩
          rw [Function.update_same]
          exact delete_if_match_other he (distinct i i2 a a2 ha ha2 hne)
        · show Function.update s.nodes j2
            (delete_if_match (s.nodes j2) a2.value).2 j = some ⟨a.value, e⟩
          rw [Function.update_noteq hjj]
          exact he
      · refine Or.inr ?_
        show a.t0 + a.ttl ≤ t + drift
        omega
    · intro i a d ha hd
      replace ha : s.attempts i = some a := ha
      have hne : i ≠ i2 := by
        refine attempts_ne_of_status ha ha2 ?_
        rw [hd, hf2]
        exact fun h => AStatus.noConfusion h
      obtain ⟨hcard, hnodes⟩ := succGood i a d ha hd
      refine ⟨hcard, fun j hj => ?_⟩
      rcases hnodes j hj with ⟨e, he, hle⟩ | hold
      · refine Or.inl ⟨e, ?_, hle⟩
        by_cases hjj : j = j2
        · subst hjj
          show Function.update s.nodes j
            (delete_if_match (s.nodes j) a2.value).2 j = some ⟨a.value, e⟩
          rw [Function.update_same]
          exact delete_if_match_other he (distinct i i2 a a2 ha ha2 hne)
        · show Function.update s.nodes j2
            (delete_if_match (s.nodes j2) a2.value).2 j = some ⟨a.value, e⟩
          rw [Function.update_noteq hjj]
          exact he
      · refine Or.inr ?_
        show d ≤ t
        omega
  | release t i2 a2 d2 ht ha2 hs2 =>
    refine ⟨?_, ?_, ?_, ?_, ?_⟩
    · intro i hi
      replace hi : s.nextId ≤ i := hi
      show Function.update s.attempts i2
        (some { a2 with status := AStatus.released }) i = none
      have hne : i ≠ i2 := by
        intro hEq
        subst hEq
        rw [ids i hi] at ha2
        exact Option.noConfusion ha2
      rw [Function.update_noteq hne]
      exact ids i hi
    · intro i a ha
      replace ha : Function.update s.attempts i2
          (some { a2 with status := AStatus.released }) i = some a := ha
      show a.t0 ≤ t
      by_cases hii : i = i2
      · subst hii
        rw [Function.update_same] at ha
        cases ha
        exact le_trans (t0le i a2 ha2) ht
      · rw [Function.update_noteq hii] at ha
        exact le_trans (t0le i a ha) ht
    · intro i j a b ha hb hij
      replace ha : Function.update s.attempts i2
          (some { a2 with status := AStatus.released }) i = some a := ha
      replace hb : Function.update s.attempts i2
          (some { a2 with status := AStatus.released }) j = some b := hb
      by_cases hii : i = i2
      · subst hii
        rw [Function.update_same] at ha
        cases ha
        rw [Function.update_noteq (Ne.symm hij)] at hb
        exact distinct i j a2 b ha2 hb hij
      · rw [Function.update_noteq hii] at ha
        by_cases hjj : j = i2
        · subst hjj
          rw [Function.update_same] at hb
          cases hb
          exact distinct i j a a2 ha ha2 hij
        · rw [Function.update_noteq hjj] at hb
          exact distinct i j a b ha hb hij
    · intro i a ha hp j hj
      replace ha : Function.update s.attempts i2
          (some { a2 with status := AStatus.released }) i = some a := ha
      by_cases hii : i = i2
      · subst hii
        rw [Function.update_same] at ha
        cases ha
        replace hp : AStatus.released = AStatus.pending := hp
        exact AStatus.noConfusion hp
      · rw [Function.update_noteq hii] at ha
        rcases pendingGood i a ha hp j hj with ⟨e, he, hle⟩ | hold
        · exact Or.inl ⟨e, he, hle⟩
        · refine Or.inr ?_
          show a.t0 + a.ttl ≤ t + drift
          omega
    · intro i a d ha hd
      replace ha : Function.update s.attempts i2
          (some { a2 with status := AStatus.released }) i = some a := ha
      by_cases hii : i = i2
      · subst hii
        rw [Function.update_same] at ha
        cases ha
        replace hd : AStatus.released = AStatus.succeeded d := hd
        exact AStatus.noConfusion hd
      · rw [Function.update_noteq hii] at ha
        obtain ⟨hcard, hnodes⟩ := succGood i a d ha hd
        refine ⟨hcard, fun j hj => ?_⟩
        rcases hnodes j hj with ⟨e, he, hle⟩ | hold
        · exact Or.inl ⟨e, he, hle⟩
        · refine Or.inr ?_
          show d ≤ t
          omega
  | releaseDelete t i2 a2 j2 ht ha2 hr2 =>
    refine ⟨ids, ?_, distinct, ?_, ?_⟩
    · intro i a ha
      exact le_trans (t0le i a ha) ht
    · intro i a ha hp j hj
      replace ha : s.attempts i = some a := ha
      have hne : i ≠ i2 := by
        refine attempts_ne_of_status ha ha2 ?_
        rw [hp, hr2]
        exact fun h => AStatus.noConfusion h
      rcases pendingGood i a ha hp j hj with ⟨e, he, hle⟩ | hold
      · refine Or.inl ⟨e, ?_, hle⟩
        by_cases hjj : j = j2
        · subst hjj
          show Function.update s.nodes j
            (delete_if_match (s.nodes j) a2.value).2 j = some ⟨a.value, e⟩
          rw [Function.update_same]
          exact delete_if_match_other he (distinct i i2 a a2 ha ha2 hne)
        · show Function.update s.nodes j2
            (delete_if_match (s.nodes j2) a2.value).2 j = some ⟨a.value, e⟩
          rw [Function.update_noteq hjj]
          exact he
      · refine Or.inr ?_
        show a.t0 + a.ttl ≤ t + drift
        omega
    · intro i a d ha hd
      replace ha : s.attempts i = some a := ha
      have hne : i ≠ i2 := by
        refine attempts_ne_of_status ha ha2 ?_
        rw [hd, hr2]
        exact fun h => AStatus.noConfusion h
      obtain ⟨hcard, hnodes⟩ := succGood i a d ha hd
      refine ⟨hcard, fun j hj => ?_⟩
      rcases hnodes j hj with ⟨e, he, hle⟩ | hold
      · refine Or.inl ⟨e, ?_, hle⟩
        by_cases hjj : j = j2
        · subst hjj
          show Function.update s.nodes j
            (delete_if_match (s.nodes j) a2.value).2 j = some ⟨a.value, e⟩
          rw [Function.update_same]
          exact delete_if_match_other he (distinct i i2 a a2 ha ha2 hne)
        · show Function.update s.nodes j2
            (delete_if_match (s.nodes j2) a2.value).2 j = some ⟨a.value, e⟩
          rw [Function.update_noteq hjj]
          exact he
      · refine Or.inr ?_
        show d ≤ t
        omega

/-- Every reachable trace state satisfies the invariant. -/
theorem inv_reachable {N drift : Nat} {s : TraceState N}
    (h : Reachable N drift s) : Inv N drift s := by
  induction h with
  | refl => exact inv_init N drift
  | tail hr hstep ih => exact inv_preserved ih hstep

/-- Claim C1: mutual exclusion: in every reachable state of the trace model,
at most one acquire attempt against the resource is in the held state
(validity deadline in the future) at the current instant, whatever the node
reachability, within the modelled clock-drift bound. -/
theorem mutual_exclusion {N drift : Nat} {s : TraceState N} (i j : Nat)
    (hreach : Reachable N drift s) (hi : heldAt s i) (hj : heldAt s j) :
    i = j := by
  obtain ⟨a, da, ha, hsa, hda⟩ := hi
  obtain ⟨b, db, hb, hsb, hdb⟩ := hj
  have hinv := inv_reachable hreach
  by_contra hne
  obtain ⟨cardA, nodesA⟩ := hinv.succGood i a da ha hsa
  obtain ⟨cardB, nodesB⟩ := hinv.succGood j b db hb hsb
  obtain ⟨x, hxA, hxB⟩ := majority_inter a.granted b.granted cardA cardB
  rcases nodesA x hxA with ⟨ea, hea, hdea⟩ | h
  · rcases nodesB x hxB with ⟨eb, heb, hdeb⟩ | h2
    · rw [hea] at heb
      have h1 := Option.some.inj heb
      have hv : a.value = b.value := congrArg Entry.value h1
      exact (hinv.distinct i j a b ha hb hne) hv
    · omega
  · omega

/-- Concrete trace, step 1: attempt 0 starts at instant 0. -/
theorem witStep1 : Step 1 0 (initState 1) witS1 :=
  Step.start (initState 1) 0 0 10 (le_refl 0)
    (fun _ _ ha => Option.noConfusion ha) (by decide)

/-- Concrete trace, step 2: the single node grants attempt 0. -/
theorem witStep2 : Step 1 0 witS1 witS2 :=
  Step.grant witS1 0 0 witPending witNode 10 (le_refl 0)
    (by
      show Function.update (initState 1).attempts 0
        (some ⟨0, 0, 10, ∅, AStatus.pending⟩) 0 = some witPending
      exact Function.update_same _ _ _) rfl
    (fun _ hen => Option.noConfusion hen) (by decide) (by decide)

/-- Concrete trace, step 3: attempt 0 completes acquisition with
deadline 10. -/
theorem witStep3 : Step 1 0 witS2 witState :=
  Step.finishSuccess witS2 0 0 witGranted 10 (le_refl 0)
    (by
      show Function.update witS1.attempts 0 (some witGranted) 0
        = some witGranted
      exact Function.update_same _ _ _) rfl (by decide) (by decide) (by decide)

/-- The concrete held state is reachable. -/
theorem witReachable : Reachable 1 0 witState :=
  Relation.ReflTransGen.tail
    (Relation.ReflTransGen.tail
      (Relation.ReflTransGen.tail Relation.ReflTransGen.refl witStep1)
      witStep2)
    witStep3

/-- Attempt 0 is held in the concrete state. -/
theorem witHeldAt : heldAt witState 0 :=
  ⟨witHeld, 10,
    by
      show Function.update witS2.attempts 0 (some witHeld) 0 = some witHeld
      exact Function.update_same _ _ _,
    rfl, by decide⟩

/-- Witness for claim C1: in the concrete reachable held state the theorem
identifies the only held attempt with itself. -/
theorem mutual_exclusion_witness :
    Reachable 1 0 witState ∧ heldAt witState 0 ∧ (0 : Nat) = 0 :=
  ⟨witReachable, witHeldAt, mutual_exclusion 0 0 witReachable witHeldAt witHeldAt⟩

/-- Claim C6: a held lock whose holder never releases it becomes acquirable
by other attempts only once its validity deadline has passed: any other
attempt that completes a successful acquisition does so at an instant no
earlier than the deadline, and a node entry accepts a new set_if_absent from
its expiry on. -/
theorem no_reacquire_before_deadline {N drift : Nat} {s s' : TraceState N}
    (i k : Nat) (a b : AttemptSt N) (d db : Nat)
    (hreach : Reachable N drift s) (hstep : Step N drift s s')
    (ha : s.attempts i = some a) (hsa : a.status = AStatus.succeeded d)
    (hbp : ∃ b0, s.attempts k = some b0 ∧ b0.status = AStatus.pending)
    (hb : s'.attempts k = some b) (hsb : b.status = AStatus.succeeded db) :
    d ≤ s'.now ∧
    (∀ en t2 w ttl2, en.expiry ≤ t2 →
      (set_if_absent (some en) t2 w ttl2).1 = true) := by
  refine ⟨?_, ?_⟩
  swap
  · intro en t2 w ttl2 hle
    simp [set_if_absent, hle]
  obtain ⟨b0, hb0, hb0p⟩ := hbp
  have hinv := inv_reachable hreach
  have hki : k ≠ i := by
    refine attempts_ne_of_status hb0 ha ?_
    rw [hb0p, hsa]
    exact fun h => AStatus.noConfusion h
  cases hstep with
  | tick t ht =>
    replace hb : s.attempts k = some b := hb
    rw [hb0] at hb
    cases hb
    rw [hb0p] at hsb
    exact AStatus.noConfusion hsb
  | start t v ttl ht hfresh httl =>
    replace hb : Function.update s.attempts s.nextId
        (some ⟨v, t, ttl, ∅, AStatus.pending⟩) k = some b := hb
    by_cases hkn : k = s.nextId
    · subst hkn
      rw [hinv.ids s.nextId (le_refl s.nextId)] at hb0
      exact Option.noConfusion hb0
    · rw [Function.update_noteq hkn] at hb
      rw [hb0] at hb
      cases hb
      rw [hb0p] at hsb
      exact AStatus.noConfusion hsb
  | grant t i2 a2 j2 e2 ht ha2 hp2 hfree helo hehi =>
    replace hb : Function.update s.attempts i2
        (some { a2 with granted := insert j2 a2.granted }) k = some b := hb
    by_cases hki2 : k = i2
    · subst hki2
      rw [Function.update_same] at hb
      cases hb
      replace hsb : a2.status = AStatus.succeeded db := hsb
      rw [hp2] at hsb
      exact AStatus.noConfusion hsb
    · rw [Function.update_noteq hki2] at hb
      rw [hb0] at hb
      cases hb
      rw [hb0p] at hsb
      exact AStatus.noConfusion hsb
  | finishSuccess t i2 a2 d2 ht ha2 hp2 hmaj hmargin hd2 =>
    replace hb : Function.update s.attempts i2
        (some { a2 with status := AStatus.succeeded d2 }) k = some b := hb
    show d ≤ t
    by_cases hki2 : k = i2
    · subst hki2
      rw [ha2] at hb0
      cases hb0
      by_contra hlt
      push_neg at hlt
      obtain ⟨cardA, nodesA⟩ := hinv.succGood i a d ha hsa
      have ht0b0 : b0.t0 ≤ s.now := hinv.t0le k b0 ha2
      obtain ⟨x, hxA, hxB⟩ := majority_inter a.granted b0.granted cardA hmaj
      rcases nodesA x hxA with ⟨ea, hea, hdea⟩ | hexp
      · rcases hinv.pendingGood k b0 ha2 hp2 x hxB with ⟨eb, heb, hleb⟩ | hold
        · rw [hea] at heb
          have h1 := Option.some.inj heb
          have hv : a.value = b0.value := congrArg Entry.value h1
          exact (hinv.distinct i k a b0 ha ha2 (Ne.symm hki)) hv
        · omega
      · omega
    · rw [Function.update_noteq hki2] at hb
      rw [hb0] at hb
      cases hb
      rw [hb0p] at hsb
      exact AStatus.noConfusion hsb
  | finishFail t i2 a2 ht ha2 hp2 =>
    replace hb : Function.update s.attempts i2
        (some { a2 with status := AStatus.failed }) k = some b := hb
    by_cases hki2 : k = i2
    · subst hki2
      rw [Function.update_same] at hb
      cases hb
      replace hsb : AStatus.failed = AStatus.succeeded db := hsb
      exact AStatus.noConfusion hsb
    · rw [Function.update_noteq hki2] at hb
      rw [hb0] at hb
      cases hb
      rw [hb0p] at hsb
      exact AStatus.noConfusion hsb
  | cleanupDelete t i2 a2 j2 ht ha2 hf2 =>
    replace hb : s.attempts k = some b := hb
    rw [hb0] at hb
    cases hb
    rw [hb0p] at hsb
    exact AStatus.noConfusion hsb
  | release t i2 a2 d2 ht ha2 hs2 =>
    replace hb : Function.update s.attempts i2
        (some { a2 with status := AStatus.released }) k = some b := hb
    by_cases hki2 : k = i2
    · subst hki2
      rw [Function.update_same] at hb
      cases hb
      replace hsb : AStatus.released = AStatus.succeeded db := hsb
      exact AStatus.noConfusion hsb
    · rw [Function.update_noteq hki2] at hb
      rw [hb0] at hb
      cases hb
      rw [hb0p] at hsb
      exact AStatus.noConfusion hsb
  | releaseDelete t i2 a2 j2 ht ha2 hr2 =>
    replace hb : s.attempts k = some b := hb
    rw [hb0] at hb
    cases hb
    rw [hb0p] at hsb
    exact AStatus.noConfusion hsb

/-- Concrete trace, step 4: attempt 1 starts at instant 10. -/
theorem witStep4 : Step 1 0 witState witS4 := by
  refine Step.start witState 10 1 5 (by decide) ?_ (by decide)
  intro i a ha
  by_cases hi : i = 0
  · subst hi
    have h0 : witState.attempts 0 = some witHeld := by
      show Function.update witS2.attempts 0 (some witHeld) 0 = some witHeld
      exact Function.update_same _ _ _
    rw [h0] at ha
    cases ha
    decide
  · have h1 : witState.attempts i = none := by
      show Function.update witS2.attempts 0
        (some { witGranted with status := AStatus.succeeded 10 }) i = none
      rw [Function.update_noteq hi]
      show Function.update witS1.attempts 0
        (some { witPending with granted := insert witNode witPending.granted }) i
        = none
      rw [Function.update_noteq hi]
      show Function.update (initState 1).attempts 0
        (some ⟨0, 0, 10, ∅, AStatus.pending⟩) i = none
      rw [Function.update_noteq hi]
      rfl
    rw [h1] at ha
    exact Option.noConfusion ha

/-- Concrete trace, step 5: the node, whose entry for attempt 0 expired at
instant 10, grants attempt 1. -/
theorem witStep5 : Step 1 0 witS4 witS5 := by
  refine Step.grant witS4 10 1 witPendingB witNode 15 (by decide)
    (by
      show Function.update witState.attempts 1 (some witPendingB) 1
        = some witPendingB
      exact Function.update_same _ _ _) rfl ?_ (by decide) (by decide)
  intro en hen
  have h0 : witS4.nodes witNode = some ⟨witPending.value, 10⟩ := by
    show Function.update witS1.nodes witNode (some ⟨witPending.value, 10⟩)
      witNode = some ⟨witPending.value, 10⟩
    exact Function.update_same _ _ _
  rw [h0] at hen
  cases hen
  decide

/-- Concrete trace, step 6: attempt 1 completes acquisition at instant 10
with deadline 15. -/
theorem witStep6 : Step 1 0 witS5 witS6 :=
  Step.finishSuccess witS5 10 1 witGrantedB 15 (by decide)
    (by
      show Function.update witS4.attempts 1 (some witGrantedB) 1
        = some witGrantedB
      exact Function.update_same _ _ _) rfl (by decide) (by decide) (by decide)

/-- The state just before the second acquisition is reachable. -/
theorem witReachable5 : Reachable 1 0 witS5 :=
  Relation.ReflTransGen.tail
    (Relation.ReflTransGen.tail witReachable witStep4) witStep5

/-- In that state attempt 0 still holds its token record. -/
theorem witS5attempts0 : witS5.attempts 0 = some witHeld := by
  show Function.update witS4.attempts 1
    (some { witPendingB with granted := insert witNode witPendingB.granted }) 0
    = some witHeld
  rw [Function.update_noteq (by decide : (0 : Nat) ≠ 1)]
  show Function.update witState.attempts 1
    (some ⟨1, 10, 5, ∅, AStatus.pending⟩) 0 = some witHeld
  rw [Function.update_noteq (by decide : (0 : Nat) ≠ 1)]
  show Function.update witS2.attempts 0 (some witHeld) 0 = some witHeld
  exact Function.update_same _ _ _

/-- In that state attempt 1 is pending with its grant recorded. -/
theorem witS5attempts1 : witS5.attempts 1 = some witGrantedB := by
  show Function.update witS4.attempts 1 (some witGrantedB) 1 = some witGrantedB
  exact Function.update_same _ _ _

/-- Witness for claim C6: the second acquisition completes exactly at
instant 10, the deadline of the never-released first holder, and the expired
entry accepts a fresh set_if_absent. -/
theorem no_reacquire_before_deadline_witness :
    (10 : Nat) ≤ witS6.now ∧ (set_if_absent (some ⟨0, 10⟩) 10 1 5).1 = true :=
  ⟨(no_reacquire_before_deadline 0 1 witHeld
      { witGrantedB with status := AStatus.succeeded 15 } 10 15
      witReachable5 witStep6 witS5attempts0 rfl
      ⟨witGrantedB, witS5attempts1, rfl⟩
      (by
        show Function.update witS5.attempts 1
          (some { witGrantedB with status := AStatus.succeeded 15 }) 1
          = some { witGrantedB with status := AStatus.succeeded 15 }
        exact Function.update_same _ _ _) rfl).1,
   (no_reacquire_before_deadline 0 1 witHeld
      { witGrantedB with status := AStatus.succeeded 15 } 10 15
      witReachable5 witStep6 witS5attempts0 rfl
      ⟨witGrantedB, witS5attempts1, rfl⟩
      (by
        show Function.update witS5.attempts 1
          (some { witGrantedB with status := AStatus.succeeded 15 }) 1
          = some { witGrantedB with status := AStatus.succeeded 15 }
        exact Function.update_same _ _ _) rfl).2 ⟨0, 10⟩ 10 1 5 (by decide)⟩

end MovieRecommend
